import Mathlib

/-!
Shallow embedding of the AdEx validator-stack core
(`services/validatorWorker/lib/index.js` and the sentry channel routes),
together with proofs checking the natural-language specification against it.

Conventions of the embedding:
* JavaScript objects used as string-keyed maps are embedded as association
  lists `List (String × _)` in insertion order (JS objects preserve key
  insertion order and have no duplicate keys).
* `bn.js` arbitrary-precision integers (`BN`) are embedded as `Int`;
  `BN.div` truncates toward zero, which is `Int.tdiv`, and throws on a
  zero divisor; a thrown `assert`/BN error is an `Except.error`.
* Byte strings handed to the crypto adapter are embedded as `Nat` values;
  hex encoding of the final digest is an injective `Nat → String` encoding.
-/

/-- One entry of `channel.spec.validators`: a validator id plus its
configured fee (`new BN(channel.spec.validators[i].fee)`). -/
structure ValidatorDesc where
  id : String
  fee : Int
  deriving DecidableEq, Repr

/-- `channel.spec`: the code only reads `validators[0]` (leader) and
`validators[1]` (follower), so the two entries are embedded as a pair. -/
structure ChannelSpecV where
  validators : ValidatorDesc × ValidatorDesc
  deriving DecidableEq, Repr

/-- The channel fields read by the validator-worker helpers:
`channel.id`, `channel.depositAmount`, `channel.spec.validators`. -/
structure Channel where
  id : String
  depositAmount : Int
  spec : ChannelSpecV
  deriving DecidableEq, Repr

/-- Sum of the values of an association-list map (used to state the
conservation property over balance maps). -/
def sumValues (m : List (String × Int)) : Int :=
  (m.map Prod.snd).sum

/-- `getValidatorFee(publisherBalance, totalValidatorFee, depositAmount)`:
`numerator = depositAmount.sub(totalValidatorFee)`;
`fee = publisherBalance.mul(numerator).div(depositAmount)`.
`BN.div` truncates toward zero and throws on a zero divisor. -/
def getValidatorFee (publisherBalance totalValidatorFee depositAmount : Int) :
    Except String Int :=
  let numerator := depositAmount - totalValidatorFee
  if depositAmount = 0 then Except.error "Division by zero"
  else Except.ok (Int.tdiv (publisherBalance * numerator) depositAmount)

/-- The `Object.keys(balances).forEach(...)` loop of
`getBalancesAfterFeesTree`, carrying `currentValidatorFee` and the
`balancesAfterFees` object built so far (entries appended in key order).
Each step subtracts the validator fee from the publisher balance and
`assert.ok`s that the result is not negative. -/
def feeLoop (depositAmount totalValidatorFee : Int) :
    List (String × Int) → Int → List (String × Int) →
    Except String (Int × List (String × Int))
  | [], currentValidatorFee, balancesAfterFees =>
      Except.ok (currentValidatorFee, balancesAfterFees)
  | (publisher, b) :: rest, currentValidatorFee, balancesAfterFees =>
      match getValidatorFee b totalValidatorFee depositAmount with
      | Except.error e => Except.error e
      | Except.ok validatorFee =>
          let publisherBalance := b - validatorFee
          if publisherBalance < 0 then
            Except.error "publisher balance should not be negative"
          else
            feeLoop depositAmount totalValidatorFee rest
              (currentValidatorFee + validatorFee)
              (balancesAfterFees ++ [(publisher, publisherBalance)])

/-- JavaScript object spread `{ ...obj, key: v }`: if `key` already exists
in `obj` its value is replaced in place, otherwise the entry is appended
at the end. -/
def spreadInsert (l : List (String × Int)) (k : String) (v : Int) :
    List (String × Int) :=
  if l.any (fun e => e.1 = k) then
    l.map (fun e => if e.1 = k then (k, v) else e)
  else l ++ [(k, v)]

/-- `getBalancesAfterFeesTree(balances, channel)`: computes per-publisher
post-fee balances and returns `{ ...balancesAfterFees, validator: currentValidatorFee }`. -/
def getBalancesAfterFeesTree (balances : List (String × Int)) (channel : Channel) :
    Except String (List (String × Int)) :=
  let depositAmount := channel.depositAmount
  let leaderFee := channel.spec.validators.1.fee
  let followerFee := channel.spec.validators.2.fee
  let totalValidatorFee := leaderFee + followerFee
  match feeLoop depositAmount totalValidatorFee balances 0 [] with
  | Except.error e => Except.error e
  | Except.ok (currentValidatorFee, balancesAfterFees) =>
      Except.ok (spreadInsert balancesAfterFees "validator" currentValidatorFee)

/-- A raw JavaScript value as it can reach `toBNMap`: `null`/`undefined`,
a number, a string, or an object (a string-keyed map of decimal strings). -/
inductive RawValue where
  | vnull
  | vnum (n : Int)
  | vstr (s : String)
  | vobj (entries : List (String × String))
  deriving DecidableEq, Repr

/-- `raw && typeof(raw) === 'object'`: `null`/`undefined` are falsy, and
only objects have `typeof` `'object'` (among the values modelled). -/
def isTruthyObject : RawValue → Bool
  | .vobj _ => true
  | _ => false

/-- Fold a list of decimal digit characters into the `Nat` they denote. -/
def digitsToNat (cs : List Char) : Nat :=
  cs.foldl (fun a c => a * 10 + (c.toNat - 48)) 0

/-- Modelled from the spec: the external bignum library's base-10 string
parsing (`new BN(s, 10)`), §6 "Balance amounts cross this boundary as
base-10 decimal strings ... the core must convert to/from its internal
arbitrary-precision integer representation exactly". Accepts an optional
leading minus sign followed by at least one decimal digit; leading zeros
are accepted and denote the same integer (positional value). -/
def bnParse (s : String) : Except String Int :=
  if s.data.head? = some '-' then
    if s.data.tail ≠ [] ∧ s.data.tail.all Char.isDigit then
      Except.ok (-(digitsToNat s.data.tail : Int))
    else Except.error "Invalid character"
  else
    if s.data ≠ [] ∧ s.data.all Char.isDigit then
      Except.ok ((digitsToNat s.data : Nat) : Int)
    else Except.error "Invalid character"

/-- The `Object.entries(raw).forEach` loop of `toBNMap`, converting every
value with `new BN(bal, 10)` (a parse failure propagates as a throw). -/
def toBNMapEntries : List (String × String) → Except String (List (String × Int))
  | [] => Except.ok []
  | e :: rest =>
      match bnParse e.2 with
      | Except.error msg => Except.error msg
      | Except.ok v =>
          match toBNMapEntries rest with
          | Except.error msg => Except.error msg
          | Except.ok tail => Except.ok ((e.1, v) :: tail)

/-- `toBNMap(raw)`: `assert.ok(raw && typeof(raw) === 'object')`, then
converts every value with `new BN(bal, 10)`. -/
def toBNMap (raw : RawValue) : Except String (List (String × Int)) :=
  match raw with
  | .vobj entries => toBNMapEntries entries
  | _ => Except.error "raw map is a valid object"

/-- The character `'0' + d` (`d < 10`): one decimal digit. -/
def decDigitChar (d : Nat) : Char :=
  Char.ofNat (48 + d)

/-- Canonical decimal printing of a `Nat`, most significant digit first,
by repeated division; the fuel argument bounds the recursion depth and is
always sufficient when instantiated as in `decPrint`. -/
def decPrintAux : Nat → Nat → List Char
  | 0, _ => []
  | fuel + 1, n =>
      if n < 10 then [decDigitChar n]
      else decPrintAux fuel (n / 10) ++ [decDigitChar (n % 10)]

/-- Canonical decimal printing of a `Nat` (no leading zeros, no sign). -/
def decPrint (n : Nat) : String :=
  ⟨decPrintAux (n + 1) n⟩

/-- Modelled from the spec: the external bignum library's canonical
base-10 printing (`bal.toString(10)`): minus sign for negatives, then the
decimal digits without leading zeros. -/
def bnToString (n : Int) : String :=
  if n < 0 then "-" ++ decPrint n.natAbs else decPrint n.toNat

/-- `toBNStringMap(raw)`: converts every value of a BN map back to a
base-10 string with `bal.toString(10)` (the `assert.ok` on the argument
being a truthy object always passes for an actual map). -/
def toBNStringMap (raw : List (String × Int)) : List (String × String) :=
  raw.map (fun e => (e.1, bnToString e.2))

/-- Hex encoding of the final digest bytes (`.toString('hex')`), embedded
as an injective rendering of the digest value. -/
def toHexString (n : Nat) : String :=
  "0x" ++ decPrint n

/-- The pluggable crypto/chain adapter (§6): leaf encoding, commitment
tree and final state-root commitment, with byte strings embedded as `Nat`. -/
structure Adapter where
  getBalanceLeaf : String → Int → Nat
  merkleTreeRoot : List Nat → Nat
  getSignableStateRoot : String → Nat → Nat

/-- `getStateRootHash(channel, balances, adapter)`: map every
`(account, balance)` entry to a leaf via `adapter.getBalanceLeaf`, build
`new adapter.MerkleTree(elems)` and take its root, then combine
`channel.id` with the balance root via `adapter.getSignableStateRoot`
and hex-encode the result. -/
def getStateRootHash (channel : Channel) (balances : List (String × Int))
    (adapter : Adapter) : String :=
  let elems := balances.map (fun e => adapter.getBalanceLeaf e.1 e.2)
  let balanceRoot := adapter.merkleTreeRoot elems
  toHexString (adapter.getSignableStateRoot channel.id balanceRoot)

/-- `isValidRootHash(leaderRootHash, { channel, balancesAfterFees, adapter })`:
strict string equality of the recomputed root with the claimed one. -/
def isValidRootHash (leaderRootHash : String) (channel : Channel)
    (balancesAfterFees : List (String × Int)) (adapter : Adapter) : Bool :=
  getStateRootHash channel balancesAfterFees adapter == leaderRootHash

/-- Modelled from the spec: the adapter's `MerkleTree` constructor is not
under `src/`; per the source comment "MerkleTree takes care of
deduplicating and sorting" and §4.1 ("construction must sort/normalize
leaves internally so that leaf insertion order never affects the
resulting root"), the root is computed from the deduplicated, sorted
leaf list by an arbitrary concrete combining function. -/
def specMerkleRoot (leaves : List Nat) : Nat :=
  (List.insertionSort (fun a b => a ≤ b) leaves.dedup).foldl
    (fun acc leaf => acc * 2 ^ 256 + leaf + 1) 0

/-- Modelled from the spec: a concrete stand-in for the adapter's
`getBalanceLeaf` keccak leaf encoding (`leafOf(address, amount)`). -/
def specBalanceLeaf (acc : String) (amount : Int) : Nat :=
  (acc.foldl (fun a c => a * 1114112 + c.toNat + 1) 7) * 2 ^ 128 +
    amount.natAbs * 2 + (if amount < 0 then 1 else 0)

/-- Modelled from the spec: a concrete stand-in for the adapter's
`getSignableStateRoot(channelId, balanceRoot)` commitment
(`commitRoot`), combining the channel id bytes with the balance root. -/
def specSignableStateRoot (channelId : String) (balanceRoot : Nat) : Nat :=
  (channelId.foldl (fun a c => a * 1114112 + c.toNat + 1) 11) * 2 ^ 512 +
    balanceRoot

/-- Modelled from the spec: the Ethereum adapter assembled from the three
modelled primitives above. -/
def specAdapter : Adapter :=
  { getBalanceLeaf := specBalanceLeaf
    merkleTreeRoot := specMerkleRoot
    getSignableStateRoot := specSignableStateRoot }

/-- The wire shape of a validator message (§6): `type`, `stateRoot`,
`signature`, `balances` (NewState only), `reason` (InvalidNewState only).
Fields that are absent on the JS object are the empty string / empty map. -/
structure Msg where
  type : String
  stateRoot : String
  signature : String
  balances : List (String × String)
  reason : String
  deriving DecidableEq, Repr

/-- A message as persisted in a channel's log: the envelope fields
`channelId`, `from`, `received` plus the message body. -/
structure StoredMsg where
  channelId : String
  fromId : String
  received : Nat
  msg : Msg
  deriving DecidableEq, Repr

/-- Modelled from the spec: `persist(adapter, channel, message)` (from
`./propagation`, not under `src/`) "posts one message into the channel's
log" (§6); embedded as producing the log entry that is appended. -/
def persist (_adapter : Adapter) (channel : Channel) (msg : Msg) : StoredMsg :=
  { channelId := channel.id, fromId := "", received := 0, msg := msg }

/-- `invalidNewState(channel, adapter, { reason, newMsg })`: persists
`{ ...newMsg, type: 'InvalidNewState', reason }` (the spread overrides
`type` — and `reason` — of `newMsg`, keeping every other field). -/
def invalidNewState (channel : Channel) (adapter : Adapter)
    (reason : String) (newMsg : Msg) : StoredMsg :=
  persist adapter channel
    { newMsg with type := "InvalidNewState", reason := reason }

/-- Modelled from the spec: the MongoDB `validatorMessages` collection
(§4.4 ValidatorMessageStore, an external collaborator) is embedded as the
list of stored messages in insertion (natural) order. `find(query).sort({
received: -1 }).limit(1)` is filtering followed by a sort on `received`,
most recent first, keeping the head; `findOne(query)` is the first match
in natural order. -/
def findLatest (l : List StoredMsg) : Option StoredMsg :=
  (List.insertionSort (fun a b => b.received ≤ a.received) l).head?

/-- The follower-authored `ApproveState` query of `retrieveLastApproved`:
`{ channelId, from: validators[1].id, 'msg.type': 'ApproveState' }`,
sorted by `received` descending, limit 1. -/
def latestApproveState (channel : Channel) (store : List StoredMsg) :
    Option StoredMsg :=
  findLatest (store.filter (fun m =>
    m.channelId == channel.id &&
    m.fromId == channel.spec.validators.2.id &&
    m.msg.type == "ApproveState"))

/-- The leader-authored `NewState` lookup of `retrieveLastApproved`:
`findOne({ channelId, from: validators[0].id, 'msg.type': 'NewState',
'msg.stateRoot': approveState.msg.stateRoot })`. -/
def matchingNewState (channel : Channel) (store : List StoredMsg)
    (approveState : StoredMsg) : Option StoredMsg :=
  store.find? (fun m =>
    m.channelId == channel.id &&
    m.fromId == channel.spec.validators.1.id &&
    m.msg.type == "NewState" &&
    m.msg.stateRoot == approveState.msg.stateRoot)

/-- `retrieveLastApproved(channel)`: `null` when no follower
`ApproveState` exists; otherwise pairs the most recent one with the
leader `NewState` sharing its `stateRoot`, or `null` when none does. -/
def retrieveLastApproved (channel : Channel) (store : List StoredMsg) :
    Option (StoredMsg × StoredMsg) :=
  match latestApproveState channel store with
  | none => none
  | some approveState =>
      match matchingNewState channel store approveState with
      | none => none
      | some newState => some (newState, approveState)

/-- `postValidatorMessages(req, res)`: rejects (401) a submitter that is
not one of the channel's validators, then inserts one record per message
with `received: new Date(startTime + idx)` (`startTime = Date.now()`),
where `idx` is the message's position in the batch. -/
def postValidatorMessages (channel : Channel) (uid : String)
    (messages : List Msg) (startTime : Nat) : Option (List StoredMsg) :=
  if channel.spec.validators.1.id == uid ∨ channel.spec.validators.2.id == uid then
    some (messages.mapIdx (fun idx msg =>
      { channelId := channel.id, fromId := uid
        received := startTime + idx, msg := msg }))
  else none

/-! ### Helper lemmas about the fee-distribution loop -/

/-- The loop never changes the total: the post-fee balances it appends
plus the accumulated validator fee account exactly for the processed
raw balances. -/
theorem feeLoop_sum (d T : Int) :
    ∀ (l : List (String × Int)) (cf : Int) (acc : List (String × Int))
      (F : Int) (out : List (String × Int)),
      feeLoop d T l cf acc = Except.ok (F, out) →
      sumValues out + F = sumValues acc + cf + sumValues l
  | [], cf, acc, F, out, h => by
      simp only [feeLoop, Except.ok.injEq, Prod.mk.injEq] at h
      simp [sumValues, ← h.1, ← h.2]
  | (p, b) :: rest, cf, acc, F, out, h => by
      rw [feeLoop, getValidatorFee] at h
      by_cases hd : d = 0
      · simp [hd] at h
      · simp only [hd, if_false] at h
        split at h
        · exact absurd h (by simp)
        · have ih := feeLoop_sum d T rest
            (cf + Int.tdiv (b * (d - T)) d)
            (acc ++ [(p, b - Int.tdiv (b * (d - T)) d)]) F out h
          simp only [sumValues, List.map_append, List.map_cons, List.sum_append,
            List.sum_cons, List.map_nil, List.sum_nil] at ih ⊢
          omega

/-- The loop preserves keys: the keys of its output are the keys of the
accumulator followed by the keys of the processed entries, in order. -/
theorem feeLoop_keys (d T : Int) :
    ∀ (l : List (String × Int)) (cf : Int) (acc : List (String × Int))
      (F : Int) (out : List (String × Int)),
      feeLoop d T l cf acc = Except.ok (F, out) →
      out.map Prod.fst = acc.map Prod.fst ++ l.map Prod.fst
  | [], cf, acc, F, out, h => by
      simp only [feeLoop, Except.ok.injEq, Prod.mk.injEq] at h
      simp [← h.2]
  | (p, b) :: rest, cf, acc, F, out, h => by
      rw [feeLoop, getValidatorFee] at h
      by_cases hd : d = 0
      · simp [hd] at h
      · simp only [hd, if_false] at h
        split at h
        · exact absurd h (by simp)
        · have ih := feeLoop_keys d T rest
            (cf + Int.tdiv (b * (d - T)) d)
            (acc ++ [(p, b - Int.tdiv (b * (d - T)) d)]) F out h
          simp only [List.map_append, List.map_cons, List.map_nil] at ih ⊢
          simp [ih]

/-- Every balance the loop appends has passed the non-negativity
assertion. -/
theorem feeLoop_entries_nonneg (d T : Int) :
    ∀ (l : List (String × Int)) (cf : Int) (acc : List (String × Int))
      (F : Int) (out : List (String × Int)),
      feeLoop d T l cf acc = Except.ok (F, out) →
      (∀ e ∈ acc, 0 ≤ e.2) → ∀ e ∈ out, 0 ≤ e.2
  | [], cf, acc, F, out, h, hacc => by
      simp only [feeLoop, Except.ok.injEq, Prod.mk.injEq] at h
      rw [← h.2]
      exact hacc
  | (p, b) :: rest, cf, acc, F, out, h, hacc => by
      rw [feeLoop, getValidatorFee] at h
      by_cases hd : d = 0
      · simp [hd] at h
      · simp only [hd, if_false] at h
        split at h
        · exact absurd h (by simp)
        · refine feeLoop_entries_nonneg d T rest _ _ F out h ?_
          intro e he
          rcases List.mem_append.mp he with h1 | h1
          · exact hacc e h1
          · simp only [List.mem_singleton] at h1
            subst h1
            simp only
            omega

/-- Under the intended configuration (non-negative balances, total fee
between `0` and the deposit) the accumulated validator fee stays
non-negative. -/
theorem feeLoop_fee_nonneg (d T : Int) (hT : 0 ≤ T) (hTd : T ≤ d) :
    ∀ (l : List (String × Int)) (cf : Int) (acc : List (String × Int))
      (F : Int) (out : List (String × Int)),
      feeLoop d T l cf acc = Except.ok (F, out) →
      0 ≤ cf → (∀ e ∈ l, 0 ≤ e.2) → 0 ≤ F
  | [], cf, acc, F, out, h, hcf, hl => by
      simp only [feeLoop, Except.ok.injEq, Prod.mk.injEq] at h
      omega
  | (p, b) :: rest, cf, acc, F, out, h, hcf, hl => by
      rw [feeLoop, getValidatorFee] at h
      by_cases hd : d = 0
      · simp [hd] at h
      · simp only [hd, if_false] at h
        split at h
        · exact absurd h (by simp)
        · have hb : 0 ≤ b := hl (p, b) (List.mem_cons_self _ _)
          have hfee : 0 ≤ Int.tdiv (b * (d - T)) d :=
            Int.tdiv_nonneg (by nlinarith) (by omega)
          refine feeLoop_fee_nonneg d T hT hTd rest _ _ F out h (by omega) ?_
          intro e he
          exact hl e (List.mem_cons_of_mem _ he)

/-- If some raw entry would produce a negative post-fee balance, the loop
throws (with a non-zero deposit the only failure is the assertion). -/
theorem feeLoop_neg_throws (d T : Int) (hd : d ≠ 0) :
    ∀ (l : List (String × Int)) (cf : Int) (acc : List (String × Int)),
      (∃ e ∈ l, e.2 - Int.tdiv (e.2 * (d - T)) d < 0) →
      feeLoop d T l cf acc =
        Except.error "publisher balance should not be negative"
  | [], cf, acc, h => by
      rcases h with ⟨e, he, _⟩
      exact absurd he (List.not_mem_nil e)
  | (p, b) :: rest, cf, acc, h => by
      rw [feeLoop, getValidatorFee]
      simp only [hd, if_false]
      by_cases hb : b - Int.tdiv (b * (d - T)) d < 0
      · simp [hb]
      · simp only [hb, if_false]
        refine feeLoop_neg_throws d T hd rest _ _ ?_
        rcases h with ⟨e, he, hlt⟩
        rcases List.mem_cons.mp he with rfl | h1
        · exact absurd hlt hb
        · exact ⟨e, h1, hlt⟩

/-! ### Helper lemmas about the object spread -/

/-- When the key is fresh, `{ ...obj, key: v }` appends the entry. -/
theorem spreadInsert_not_mem (l : List (String × Int)) (k : String) (v : Int)
    (h : k ∉ l.map Prod.fst) : spreadInsert l k v = l ++ [(k, v)] := by
  rw [spreadInsert, if_neg]
  intro hany
  rcases List.any_eq_true.mp hany with ⟨e, he, hk⟩
  exact h (List.mem_map.mpr ⟨e, he, of_decide_eq_true hk⟩)

/-- When the key already exists, `{ ...obj, key: v }` replaces its value
in place. -/
theorem spreadInsert_mem (l : List (String × Int)) (k : String) (v : Int)
    (h : k ∈ l.map Prod.fst) :
    spreadInsert l k v = l.map (fun e => if e.1 = k then (k, v) else e) := by
  rw [spreadInsert, if_pos]
  rcases List.mem_map.mp h with ⟨e, he, hk⟩
  exact List.any_eq_true.mpr ⟨e, he, decide_eq_true hk⟩

/-- Every entry of `{ ...obj, key: v }` is an entry of `obj` or the new
`(key, v)` entry. -/
theorem spreadInsert_mem_cases (l : List (String × Int)) (k : String) (v : Int)
    (e : String × Int) (he : e ∈ spreadInsert l k v) : e ∈ l ∨ e = (k, v) := by
  rw [spreadInsert] at he
  split at he
  · rcases List.mem_map.mp he with ⟨e', he', hrepl⟩
    by_cases hk : e'.1 = k
    · right
      rw [← hrepl, if_pos hk]
    · left
      rwa [← hrepl, if_neg hk]
  · rcases List.mem_append.mp he with h1 | h1
    · exact Or.inl h1
    · exact Or.inr (List.mem_singleton.mp h1)

/-- Looking up the replaced key after an in-place replacement yields the
new value. -/
theorem mapReplace_lookup (k : String) (v : Int) :
    ∀ l : List (String × Int), k ∈ l.map Prod.fst →
      (l.map (fun e => if e.1 = k then (k, v) else e)).lookup k = some v
  | [], h => absurd h (by simp)
  | (a, b) :: rest, h => by
      by_cases hk : a = k
      · subst hk
        rw [List.map_cons,
          show (if ((a : String), (b : Int)).1 = a then (a, v) else (a, b)) = (a, v)
            from if_pos rfl]
        simp [List.lookup]
      · have hrest : k ∈ rest.map Prod.fst := by
          rcases List.mem_map.mp h with ⟨e', he', hk'⟩
          rcases List.mem_cons.mp he' with rfl | h1
          · exact absurd hk' hk
          · exact List.mem_map.mpr ⟨e', h1, hk'⟩
        have hne : (k == a) = false := beq_eq_false_iff_ne.mpr (Ne.symm hk)
        rw [List.map_cons,
          show (if ((a : String), (b : Int)).1 = k then (k, v) else (a, b)) = (a, b)
            from if_neg hk]
        simp only [List.lookup, hne]
        exact mapReplace_lookup k v rest hrest

/-! ### Concrete channels used by witnesses and counterexamples -/

/-- The §8 scenario channel: deposit 1000, leader fee 10, follower fee 5. -/
def chFee : Channel :=
  { id := "0xc1"
    depositAmount := 1000
    spec := { validators :=
      ({ id := "leaderv", fee := 10 }, { id := "followerv", fee := 5 }) } }

/-- A channel whose total validator fee (100) exceeds its deposit (10). -/
def chNegFee : Channel :=
  { id := "0xc2"
    depositAmount := 10
    spec := { validators :=
      ({ id := "leaderv", fee := 100 }, { id := "followerv", fee := 0 }) } }

/-! ### C1: sum preservation of the fee distribution -/

/-- C1 (amended): for a channel with non-negative deposit and fees and a
raw balance map of non-negative amounts whose keys do not include the
literal string `"validator"`, the values of the map returned by
`getBalancesAfterFeesTree` (post-fee balances plus the synthetic
`validator` entry) sum exactly to the sum of the raw balances. -/
theorem getBalancesAfterFeesTree_sum_preserved (balances : List (String × Int))
    (channel : Channel) (out : List (String × Int))
    (_hdep : 0 ≤ channel.depositAmount)
    (_hlf : 0 ≤ channel.spec.validators.1.fee)
    (_hff : 0 ≤ channel.spec.validators.2.fee)
    (_hbal : ∀ e ∈ balances, 0 ≤ e.2)
    (hnk : "validator" ∉ balances.map Prod.fst)
    (hok : getBalancesAfterFeesTree balances channel = Except.ok out) :
    sumValues out = sumValues balances := by
  rw [getBalancesAfterFeesTree] at hok
  cases hfl : feeLoop channel.depositAmount
      (channel.spec.validators.1.fee + channel.spec.validators.2.fee)
      balances 0 [] with
  | error e =>
      rw [hfl] at hok
      exact absurd hok (by simp)
  | ok p =>
      obtain ⟨F, loopOut⟩ := p
      rw [hfl] at hok
      simp only [Except.ok.injEq] at hok
      have hkeys := feeLoop_keys _ _ balances 0 [] F loopOut hfl
      have hsum := feeLoop_sum _ _ balances 0 [] F loopOut hfl
      have hnotin : "validator" ∉ loopOut.map Prod.fst := by
        rw [hkeys]
        simpa using hnk
      rw [← hok, spreadInsert_not_mem _ _ _ hnotin]
      simp only [sumValues, List.map_append, List.sum_append, List.map_cons,
        List.map_nil, List.sum_cons, List.sum_nil] at hsum ⊢
      omega

/-- C1 counterexample: with the §8 channel and the raw map
`{validator: 100}`, the computation succeeds but returns `{validator: 98}`
(the publisher's post-fee balance 2 is overwritten by the accumulated fee
98), so the output sum 98 differs from the input sum 100. -/
theorem getBalancesAfterFeesTree_sum_cex :
    getBalancesAfterFeesTree [("validator", 100)] chFee =
      Except.ok [("validator", 98)] ∧
    sumValues [("validator", (98 : Int))] ≠ sumValues [("validator", (100 : Int))] :=
  ⟨rfl, by decide⟩

/-- C1 witness: the §8 scenario, deposit 1000, fees 10 and 5, raw map
`{A: 100, B: 200}`: the output `{A: 2, B: 3, validator: 295}` sums to 300. -/
theorem getBalancesAfterFeesTree_sum_preserved_witness :
    sumValues [("a", 2), ("b", 3), ("validator", 295)] =
      sumValues [("a", (100 : Int)), ("b", 200)] :=
  getBalancesAfterFeesTree_sum_preserved [("a", 100), ("b", 200)] chFee
    [("a", 2), ("b", 3), ("validator", 295)] (by decide) (by decide) (by decide)
    (by decide) (by decide) rfl

/-! ### C2: non-negativity of the fee-distribution output -/

/-- C2 (amended): every per-publisher entry of the returned mapping is
≥ 0 (a negative computed post-fee balance makes the computation throw,
second conjunct), and when additionally the deposit and fees are
non-negative, the total validator fee does not exceed the deposit and the
raw balances are non-negative, the synthetic `validator` entry is ≥ 0 as
well (first conjunct); without the fee/deposit bound the `validator`
entry can be negative. -/
theorem getBalancesAfterFeesTree_nonneg (balances : List (String × Int))
    (channel : Channel) :
    (∀ out, getBalancesAfterFeesTree balances channel = Except.ok out →
      0 ≤ channel.depositAmount →
      0 ≤ channel.spec.validators.1.fee →
      0 ≤ channel.spec.validators.2.fee →
      channel.spec.validators.1.fee + channel.spec.validators.2.fee ≤
        channel.depositAmount →
      (∀ e ∈ balances, 0 ≤ e.2) →
      ∀ e ∈ out, 0 ≤ e.2) ∧
    (channel.depositAmount ≠ 0 →
      (∃ e ∈ balances,
        e.2 - Int.tdiv
          (e.2 * (channel.depositAmount -
            (channel.spec.validators.1.fee + channel.spec.validators.2.fee)))
          channel.depositAmount < 0) →
      getBalancesAfterFeesTree balances channel =
        Except.error "publisher balance should not be negative") := by
  constructor
  · intro out hok hdep hlf hff hTd hbal
    rw [getBalancesAfterFeesTree] at hok
    cases hfl : feeLoop channel.depositAmount
        (channel.spec.validators.1.fee + channel.spec.validators.2.fee)
        balances 0 [] with
    | error e =>
        rw [hfl] at hok
        exact absurd hok (by simp)
    | ok p =>
        obtain ⟨F, loopOut⟩ := p
        rw [hfl] at hok
        simp only [Except.ok.injEq] at hok
        intro e he
        rw [← hok] at he
        rcases spreadInsert_mem_cases loopOut "validator" F e he with h1 | h1
        · exact feeLoop_entries_nonneg _ _ balances 0 [] F loopOut hfl
            (by intro e' he'; exact absurd he' (List.not_mem_nil e')) e h1
        · rw [h1]
          exact feeLoop_fee_nonneg _ _ (by omega) hTd balances 0 [] F loopOut
            hfl le_rfl hbal
  · intro hd hexists
    rw [getBalancesAfterFeesTree, feeLoop_neg_throws _ _ hd balances 0 [] hexists]

/-- C2 counterexample: on a channel whose total validator fee 100 exceeds
its deposit 10, the raw map `{a: 5}` yields `{a: 50, validator: -45}`
without throwing: the returned `validator` entry is negative. -/
theorem getBalancesAfterFeesTree_nonneg_cex :
    getBalancesAfterFeesTree [("a", 5)] chNegFee =
      Except.ok [("a", 50), ("validator", -45)] ∧ (-45 : Int) < 0 :=
  ⟨rfl, by decide⟩

/-- C2 witness: on the §8 channel with raw map `{a: 100}` the output is
`{a: 2, validator: 98}` and its `validator` entry 98 is non-negative. -/
theorem getBalancesAfterFeesTree_nonneg_witness :
    getBalancesAfterFeesTree [("a", 100)] chFee =
      Except.ok [("a", 2), ("validator", 98)] ∧ (0 : Int) ≤ 98 :=
  ⟨rfl,
    (getBalancesAfterFeesTree_nonneg [("a", 100)] chFee).1
      [("a", 2), ("validator", 98)] rfl (by decide) (by decide) (by decide)
      (by decide) (by decide) ("validator", 98) (by decide)⟩

/-! ### C3: input validation of the fee-distribution pipeline -/

/-- C3 (amended): `toBNMap` throws when its argument is not a truthy
object, but an empty mapping is accepted, not rejected: `toBNMap({})`
returns `{}` and `getBalancesAfterFeesTree({}, channel)` succeeds for
every channel, returning just the synthetic `{validator: 0}` entry. -/
theorem toBNMap_validation (raw : RawValue)
    (h : isTruthyObject raw = false) :
    toBNMap raw = Except.error "raw map is a valid object" ∧
    toBNMap (RawValue.vobj []) = Except.ok [] ∧
    ∀ channel : Channel,
      getBalancesAfterFeesTree [] channel = Except.ok [("validator", 0)] := by
  refine ⟨?_, rfl, fun channel => rfl⟩
  cases raw with
  | vnull => rfl
  | vnum n => rfl
  | vstr s => rfl
  | vobj entries => exact absurd h (by simp [isTruthyObject])

/-- C3 counterexample: the empty mapping does not make the
fee-distribution pipeline fail — both conversion and fee distribution
succeed on it. -/
theorem toBNMap_empty_cex :
    toBNMap (RawValue.vobj []) = Except.ok [] ∧
    getBalancesAfterFeesTree [] chFee = Except.ok [("validator", 0)] :=
  ⟨rfl, rfl⟩

/-- C3 witness: `toBNMap(null)` throws the object assertion. -/
theorem toBNMap_validation_witness :
    toBNMap RawValue.vnull = Except.error "raw map is a valid object" :=
  (toBNMap_validation RawValue.vnull rfl).1

/-! ### C10: the synthetic `validator` key collides with a publisher -/

/-- C10: when the raw balance map contains a publisher whose address is
the literal string `"validator"`, the result spread silently overwrites
that publisher's computed post-fee balance with the accumulated validator
fee: the returned mapping is the per-publisher mapping with the
`validator`-keyed entry replaced in place, looking up `"validator"`
yields the accumulated fee, and no extra entry is appended (the
publisher's post-fee entry is lost). -/
theorem getBalancesAfterFeesTree_validator_overwritten
    (balances : List (String × Int)) (channel : Channel)
    (F : Int) (loopOut : List (String × Int))
    (hloop : feeLoop channel.depositAmount
      (channel.spec.validators.1.fee + channel.spec.validators.2.fee)
      balances 0 [] = Except.ok (F, loopOut))
    (hmem : "validator" ∈ balances.map Prod.fst) :
    getBalancesAfterFeesTree balances channel =
      Except.ok (loopOut.map
        (fun e => if e.1 = "validator" then ("validator", F) else e)) ∧
    (loopOut.map
        (fun e => if e.1 = "validator" then ("validator", F) else e)).lookup
      "validator" = some F ∧
    (loopOut.map
        (fun e => if e.1 = "validator" then ("validator", F) else e)).length =
      balances.length := by
  have hkeys := feeLoop_keys _ _ balances 0 [] F loopOut hloop
  have hmem' : "validator" ∈ loopOut.map Prod.fst := by
    rw [hkeys]
    simpa using hmem
  refine ⟨?_, mapReplace_lookup _ _ loopOut hmem', ?_⟩
  · rw [getBalancesAfterFeesTree, hloop]
    exact congrArg Except.ok (spreadInsert_mem _ _ _ hmem')
  · have : loopOut.length = balances.length := by
      have := congrArg List.length hkeys
      simpa using this
    simp [this]

/-- C10 witness: with the §8 channel and raw map `{validator: 100}`, the
publisher's computed post-fee balance 2 is overwritten by the accumulated
fee 98: the output is `{validator: 98}`, same length as the input. -/
theorem getBalancesAfterFeesTree_validator_overwritten_witness :
    getBalancesAfterFeesTree [("validator", 100)] chFee =
      Except.ok [("validator", 98)] ∧
    [(("validator" : String), (98 : Int))].lookup "validator" = some 98 ∧
    [(("validator" : String), (98 : Int))].length =
      [(("validator" : String), (100 : Int))].length :=
  getBalancesAfterFeesTree_validator_overwritten [("validator", 100)] chFee
    98 [("validator", 2)] rfl (by decide)

/-! ### C4: root validation is exact recomputation plus value equality -/

/-- C4: for every claimed root, channel, post-fee balance set and
adapter, `isValidRootHash` returns true exactly when the claimed root is
equal, as a string value, to the root freshly recomputed by
`getStateRootHash` over the same channel and balances — no partial
matching of any kind. -/
theorem isValidRootHash_iff (leaderRootHash : String) (channel : Channel)
    (balancesAfterFees : List (String × Int)) (adapter : Adapter) :
    isValidRootHash leaderRootHash channel balancesAfterFees adapter = true ↔
      getStateRootHash channel balancesAfterFees adapter = leaderRootHash := by
  rw [isValidRootHash]
  exact beq_iff_eq

/-! ### C5: order independence of the state root -/

/-- The modelled Merkle root only depends on the set of leaves. -/
theorem specMerkleRoot_set_eq (l1 l2 : List Nat)
    (h : l1.toFinset = l2.toFinset) : specMerkleRoot l1 = specMerkleRoot l2 := by
  rw [specMerkleRoot, specMerkleRoot]
  have hperm : l1.dedup.Perm l2.dedup := by
    have h2 := congrArg Finset.val h
    simp [List.toFinset, Multiset.toFinset] at h2
    exact h2
  have hsorted :
      List.insertionSort (fun a b => a ≤ b) l1.dedup =
        List.insertionSort (fun a b => a ≤ b) l2.dedup := by
    apply List.eq_of_perm_of_sorted _ (List.sorted_insertionSort _ _)
      (List.sorted_insertionSort _ _)
    exact ((List.perm_insertionSort _ _).trans hperm).trans
      (List.perm_insertionSort _ _).symm
  rw [hsorted]

/-- C5: with the spec-modelled adapter (whose `MerkleTree` deduplicates
and sorts its leaves), `getStateRootHash` yields the identical state root
for any two balance enumerations that denote the same set of
(address, amount) pairs — permutations, duplicates and all; the result
depends only on the channel id and that set. -/
theorem getStateRootHash_order_independent (channel : Channel)
    (b1 b2 : List (String × Int)) (h : b1.toFinset = b2.toFinset) :
    getStateRootHash channel b1 specAdapter =
      getStateRootHash channel b2 specAdapter := by
  rw [getStateRootHash, getStateRootHash]
  have hleaves :
      (b1.map (fun e => specAdapter.getBalanceLeaf e.1 e.2)).toFinset =
        (b2.map (fun e => specAdapter.getBalanceLeaf e.1 e.2)).toFinset := by
    have hmem : ∀ a, a ∈ b1 ↔ a ∈ b2 := by
      intro a
      rw [← List.mem_toFinset, h, List.mem_toFinset]
    ext x
    simp only [List.mem_toFinset, List.mem_map]
    constructor <;> rintro ⟨a, ha, rfl⟩
    · exact ⟨a, (hmem a).mp ha, rfl⟩
    · exact ⟨a, (hmem a).mpr ha, rfl⟩
  rw [show specAdapter.merkleTreeRoot = specMerkleRoot from rfl,
    specMerkleRoot_set_eq _ _ hleaves]

/-- C5 witness: reordering and duplicating entries of a balance set does
not change the state root. -/
theorem getStateRootHash_order_independent_witness :
    getStateRootHash chFee [("a", 1), ("b", 2)] specAdapter =
      getStateRootHash chFee [("b", 2), ("a", 1), ("b", 2)] specAdapter :=
  getStateRootHash_order_independent chFee [("a", 1), ("b", 2)]
    [("b", 2), ("a", 1), ("b", 2)] (by decide)

/-! ### C6: rejection messages preserve the original fields -/

/-- C6: the record that `invalidNewState` passes to `persist` always has
`type = "InvalidNewState"` — whatever type `newMsg` carried — carries the
given reason, and keeps every other field of `newMsg` (stateRoot,
signature, balances) unchanged; it is persisted into the given channel's
log. -/
theorem invalidNewState_fields (channel : Channel) (adapter : Adapter)
    (reason : String) (newMsg : Msg) :
    (invalidNewState channel adapter reason newMsg).msg.type =
      "InvalidNewState" ∧
    (invalidNewState channel adapter reason newMsg).msg.reason = reason ∧
    (invalidNewState channel adapter reason newMsg).msg.stateRoot =
      newMsg.stateRoot ∧
    (invalidNewState channel adapter reason newMsg).msg.signature =
      newMsg.signature ∧
    (invalidNewState channel adapter reason newMsg).msg.balances =
      newMsg.balances ∧
    (invalidNewState channel adapter reason newMsg).channelId = channel.id :=
  ⟨rfl, rfl, rfl, rfl, rfl, rfl⟩

/-! ### C7: checkpoint resolution -/

/-- The most recent element returned by a descending-`received` query is
an element of the queried list. -/
theorem findLatest_mem (l : List StoredMsg) (a : StoredMsg)
    (h : findLatest l = some a) : a ∈ l := by
  cases hs : List.insertionSort (fun a b => b.received ≤ a.received) l with
  | nil =>
      rw [findLatest, hs] at h
      exact absurd h (by simp)
  | cons x xs =>
      rw [findLatest, hs] at h
      simp only [List.head?, Option.some.injEq] at h
      have hx : x ∈ List.insertionSort (fun a b => b.received ≤ a.received) l := by
        rw [hs]
        exact List.mem_cons_self x xs
      exact h ▸ (List.perm_insertionSort _ l).subset hx

/-- C7: `retrieveLastApproved` returns empty when the store holds no
follower-authored `ApproveState` for the channel; returns empty when the
most recent such `ApproveState` exists but no leader-authored `NewState`
shares its `stateRoot`; and otherwise returns the `{newState,
approveState}` pair, which shares that `stateRoot` and is authored by
leader (`validators[0]`) and follower (`validators[1]`) respectively. -/
theorem retrieveLastApproved_spec (channel : Channel) (store : List StoredMsg) :
    ((∀ m ∈ store, ¬(m.channelId = channel.id ∧
        m.fromId = channel.spec.validators.2.id ∧
        m.msg.type = "ApproveState")) →
      retrieveLastApproved channel store = none) ∧
    (∀ a, latestApproveState channel store = some a →
      (∀ m ∈ store, ¬(m.channelId = channel.id ∧
        m.fromId = channel.spec.validators.1.id ∧
        m.msg.type = "NewState" ∧ m.msg.stateRoot = a.msg.stateRoot)) →
      retrieveLastApproved channel store = none) ∧
    (∀ a n, latestApproveState channel store = some a →
      matchingNewState channel store a = some n →
      retrieveLastApproved channel store = some (n, a) ∧
      n.msg.stateRoot = a.msg.stateRoot ∧
      n.fromId = channel.spec.validators.1.id ∧ n.msg.type = "NewState" ∧
      n.channelId = channel.id ∧
      a.fromId = channel.spec.validators.2.id ∧
      a.msg.type = "ApproveState" ∧ a.channelId = channel.id) := by
  refine ⟨?_, ?_, ?_⟩
  · intro h
    have hfil : store.filter (fun m =>
        m.channelId == channel.id &&
        m.fromId == channel.spec.validators.2.id &&
        m.msg.type == "ApproveState") = [] := by
      rw [List.filter_eq_nil_iff]
      intro m hm hp
      simp only [Bool.and_eq_true, beq_iff_eq] at hp
      exact h m hm ⟨hp.1.1, hp.1.2, hp.2⟩
    have hnone : latestApproveState channel store = none := by
      rw [latestApproveState, hfil]
      rfl
    rw [retrieveLastApproved, hnone]
  · intro a ha h
    have hmn : matchingNewState channel store a = none := by
      rw [matchingNewState, List.find?_eq_none]
      intro m hm hp
      simp only [Bool.and_eq_true, beq_iff_eq] at hp
      exact h m hm ⟨hp.1.1.1, hp.1.1.2, hp.1.2, hp.2⟩
    simp only [retrieveLastApproved, ha, hmn]
  · intro a n ha hn
    have hpn := List.find?_some hn
    simp only [Bool.and_eq_true, beq_iff_eq] at hpn
    have hamem : a ∈ store.filter (fun m =>
        m.channelId == channel.id &&
        m.fromId == channel.spec.validators.2.id &&
        m.msg.type == "ApproveState") := by
      rw [latestApproveState] at ha
      exact findLatest_mem _ _ ha
    have hpa := List.of_mem_filter hamem
    simp only [Bool.and_eq_true, beq_iff_eq] at hpa
    refine ⟨?_, hpn.2, hpn.1.1.2, hpn.1.2, hpn.1.1.1, hpa.1.2, hpa.2, hpa.1.1⟩
    simp only [retrieveLastApproved, ha, hn]

/-- The leader's `NewState` proposal for state root `"abc"`. -/
def storedNS : StoredMsg :=
  { channelId := "0xc1", fromId := "leaderv", received := 1
    msg := { type := "NewState", stateRoot := "abc", signature := "s1"
             balances := [("a", "2")], reason := "" } }

/-- The follower's `ApproveState` attestation for the same state root. -/
def storedAS : StoredMsg :=
  { channelId := "0xc1", fromId := "followerv", received := 2
    msg := { type := "ApproveState", stateRoot := "abc", signature := "s2"
             balances := [], reason := "" } }

/-- C7 witness: in a store holding a matching proposal/approval pair for
the channel, `retrieveLastApproved` returns exactly that pair. -/
theorem retrieveLastApproved_spec_witness :
    retrieveLastApproved chFee [storedNS, storedAS] = some (storedNS, storedAS) :=
  ((retrieveLastApproved_spec chFee [storedNS, storedAS]).2.2
    storedAS storedNS rfl rfl).1

/-! ### C8: batch ordering of persisted validator messages -/

/-- C8: a batch of N messages accepted by `postValidatorMessages` is
stored with `received = startTime + idx`; consequently `received` values
are strictly increasing in submission order and pairwise distinct within
the batch appended to the channel. -/
theorem postValidatorMessages_received (channel : Channel) (uid : String)
    (messages : List Msg) (startTime : Nat) (out : List StoredMsg)
    (hok : postValidatorMessages channel uid messages startTime = some out) :
    (∀ (i : Nat) (hi : i < out.length),
      (out.get ⟨i, hi⟩).received = startTime + i) ∧
    (∀ (i j : Nat) (hij : i < j) (hj : j < out.length),
      (out.get ⟨i, Nat.lt_trans hij hj⟩).received <
        (out.get ⟨j, hj⟩).received) ∧
    (out.map (fun r => r.received)).Nodup ∧
    ∀ r ∈ out, r.channelId = channel.id := by
  rw [postValidatorMessages] at hok
  split at hok
  case isFalse => exact absurd hok (by simp)
  case isTrue hv =>
  simp only [Option.some.injEq] at hok
  subst hok
  have hrec : ∀ (i : Nat) (hi : i < (messages.mapIdx (fun idx msg =>
      ({ channelId := channel.id, fromId := uid,
         received := startTime + idx, msg := msg } : StoredMsg))).length),
      ((messages.mapIdx (fun idx msg =>
        ({ channelId := channel.id, fromId := uid,
           received := startTime + idx, msg := msg } : StoredMsg))).get
        ⟨i, hi⟩).received = startTime + i := by
    intro i hi
    rw [List.get_eq_getElem, List.getElem_mapIdx]
  refine ⟨hrec, ?_, ?_, ?_⟩
  · intro i j hij hj
    rw [hrec i (Nat.lt_trans hij hj), hrec j hj]
    omega
  · have hmap : (messages.mapIdx (fun idx msg =>
        ({ channelId := channel.id, fromId := uid,
           received := startTime + idx, msg := msg } : StoredMsg))).map
          (fun r => r.received) =
        (List.range messages.length).map (startTime + ·) := by
      apply List.ext_getElem
      · simp
      · intro n h1 h2
        simp [List.getElem_mapIdx]
    rw [hmap]
    apply List.Nodup.map _ (List.nodup_range _)
    intro a b hab
    simpa using hab
  · intro r hr
    rcases List.mem_mapIdx.mp hr with ⟨i, hi, hri⟩
    rw [← hri]

/-- C8 witness: a batch of five messages posted together at `startTime`
100 by the leader is stored with pairwise-distinct `received` values
100, 101, 102, 103, 104. -/
theorem postValidatorMessages_received_witness :
    (([{ channelId := "0xc1", fromId := "leaderv", received := 100
         msg := storedNS.msg },
       { channelId := "0xc1", fromId := "leaderv", received := 101
         msg := storedNS.msg },
       { channelId := "0xc1", fromId := "leaderv", received := 102
         msg := storedNS.msg },
       { channelId := "0xc1", fromId := "leaderv", received := 103
         msg := storedNS.msg },
       { channelId := "0xc1", fromId := "leaderv", received := 104
         msg := storedNS.msg }] : List StoredMsg).map
      (fun r => r.received)).Nodup :=
  (postValidatorMessages_received chFee "leaderv"
    (List.replicate 5 storedNS.msg) 100 _ rfl).2.2.1

/-! ### C9: decimal string round trip -/

/-- Code of a printed digit character. -/
theorem decDigitChar_toNat (d : Nat) (h : d < 10) :
    (decDigitChar d).toNat = 48 + d := by
  rw [decDigitChar]
  interval_cases d <;> decide

/-- Printed digit characters are decimal digits. -/
theorem decDigitChar_isDigit (d : Nat) (h : d < 10) :
    (decDigitChar d).isDigit = true := by
  rw [decDigitChar]
  interval_cases d <;> decide

/-- Every character the decimal printer emits is a decimal digit. -/
theorem decPrintAux_digits :
    ∀ (fuel n : Nat), ∀ c ∈ decPrintAux fuel n, c.isDigit = true
  | 0, n, c, hc => absurd hc (by simp [decPrintAux])
  | fuel + 1, n, c, hc => by
      rw [decPrintAux] at hc
      split at hc
      · next h =>
          rw [List.mem_singleton] at hc
          rw [hc]
          exact decDigitChar_isDigit n h
      · rcases List.mem_append.mp hc with h1 | h1
        · exact decPrintAux_digits fuel (n / 10) c h1
        · rw [List.mem_singleton] at h1
          rw [h1]
          exact decDigitChar_isDigit (n % 10) (Nat.mod_lt n (by omega))

/-- With positive fuel the decimal printer emits at least one digit. -/
theorem decPrintAux_ne_nil (fuel n : Nat) :
    decPrintAux (fuel + 1) n ≠ [] := by
  rw [decPrintAux]
  split
  · simp
  · simp

/-- Appending one digit multiplies the parsed value by ten. -/
theorem digitsToNat_append (cs : List Char) (c : Char) :
    digitsToNat (cs ++ [c]) = 10 * digitsToNat cs + (c.toNat - 48) := by
  rw [digitsToNat, digitsToNat, List.foldl_append]
  simp [Nat.mul_comm]

/-- Parsing inverts printing (with sufficient fuel). -/
theorem digitsToNat_decPrintAux :
    ∀ (fuel n : Nat), n < 10 ^ fuel →
      digitsToNat (decPrintAux fuel n) = n
  | 0, n, h => by
      simp only [Nat.pow_zero, Nat.lt_one_iff] at h
      simp [decPrintAux, digitsToNat, h]
  | fuel + 1, n, h => by
      rw [decPrintAux]
      split
      · next h10 =>
          rw [digitsToNat, List.foldl_cons, List.foldl_nil,
            decDigitChar_toNat n h10]
          omega
      · next h10 =>
          have hdiv : n / 10 < 10 ^ fuel := by
            rw [Nat.div_lt_iff_lt_mul (by omega)]
            calc n < 10 ^ (fuel + 1) := h
            _ = 10 ^ fuel * 10 := by ring
          rw [digitsToNat_append, digitsToNat_decPrintAux fuel (n / 10) hdiv,
            decDigitChar_toNat (n % 10) (Nat.mod_lt n (by omega))]
          omega

/-- Parsing the canonical print of a natural number recovers it. -/
theorem digitsToNat_decPrint (n : Nat) : digitsToNat (decPrint n).data = n :=
  digitsToNat_decPrintAux (n + 1) n
    (Nat.lt_of_lt_of_le (Nat.lt_pow_self (by omega) n)
      (Nat.pow_le_pow_right (by omega) (by omega)))

/-- `new BN(s, 10)` on a canonically printed natural number parses back
to that number. -/
theorem bnParse_decPrint (n : Nat) : bnParse (decPrint n) = Except.ok (n : Int) := by
  have hdata : (decPrint n).data = decPrintAux (n + 1) n := rfl
  have hne : (decPrint n).data ≠ [] := by
    rw [hdata]
    exact decPrintAux_ne_nil n n
  have hdig : ∀ c ∈ (decPrint n).data, c.isDigit = true := by
    rw [hdata]
    exact decPrintAux_digits (n + 1) n
  have hhead : (decPrint n).data.head? ≠ some '-' := by
    rcases List.exists_cons_of_ne_nil hne with ⟨c, cs, hcons⟩
    rw [hcons]
    simp only [List.head?, ne_eq, Option.some.injEq]
    intro hcm
    have := hdig c (hcons ▸ List.mem_cons_self c cs)
    rw [hcm] at this
    exact absurd this (by decide)
  rw [bnParse, if_neg hhead, if_pos ⟨hne, List.all_eq_true.mpr hdig⟩,
    digitsToNat_decPrint]

/-- `bal.toString(10)` of a non-negative big integer is its canonical
decimal print. -/
theorem bnToString_ofNat (n : Nat) : bnToString (n : Int) = decPrint n := by
  rw [bnToString, if_neg (by omega)]
  simp

/-- C9 (amended): for every mapping whose values are canonical decimal
strings — the canonical base-10 print of a natural number, so digits
only, no sign, no leading zeros — converting with `toBNMap` and back
with `toBNStringMap` returns the original mapping exactly. A value with
redundant leading zeros parses exactly but is printed back canonically,
so the string round trip is not the identity on it. -/
theorem toBNMap_roundtrip (m : List (String × String))
    (h : ∀ e ∈ m, ∃ n : Nat, e.2 = decPrint n) :
    (toBNMap (RawValue.vobj m)).map toBNStringMap = Except.ok m := by
  rw [toBNMap]
  induction m with
  | nil => rfl
  | cons e rest ih =>
      rcases h e (List.mem_cons_self e rest) with ⟨n, hn⟩
      have hrest := ih (fun e' he' => h e' (List.mem_cons_of_mem e he'))
      cases hr : toBNMapEntries rest with
      | error msg =>
          rw [hr] at hrest
          exact absurd hrest (by simp [Except.map])
      | ok tail =>
          rw [hr] at hrest
          simp only [Except.map, Except.ok.injEq] at hrest
          rw [toBNMapEntries, hn, bnParse_decPrint, hr]
          simp only [Except.map, Except.ok.injEq]
          rw [toBNStringMap, List.map_cons]
          rw [show ((e.1, (n : Int)).1, bnToString (e.1, (n : Int)).2) =
            (e.1, decPrint n) from by rw [bnToString_ofNat]]
          rw [← hn, ← toBNStringMap, hrest]

/-- C9 counterexample: the valid non-negative decimal string `"007"`
parses exactly to 7 but is printed back as `"7"`, so the round trip does
not return the original mapping. -/
theorem toBNMap_roundtrip_cex :
    (toBNMap (RawValue.vobj [("a", "007")])).map toBNStringMap =
      Except.ok [("a", "7")] ∧ ("7" : String) ≠ "007" :=
  ⟨rfl, by decide⟩

/-- C9 witness: the canonical mapping `{a: "12", b: "0"}` round-trips
exactly. -/
theorem toBNMap_roundtrip_witness :
    (toBNMap (RawValue.vobj [("a", "12"), ("b", "0")])).map toBNStringMap =
      Except.ok [("a", "12"), ("b", "0")] :=
  toBNMap_roundtrip [("a", "12"), ("b", "0")] (by
    intro e he
    simp only [List.mem_cons, List.not_mem_nil, or_false] at he
    rcases he with rfl | rfl
    · exact ⟨12, rfl⟩
    · exact ⟨0, rfl⟩)
